import Mathlib

/-!
Verification of `terraform-provider-revos` (package `internal/provider`).

The development shallowly embeds the provider's semantic JSON comparator
(`jsonEqual` / `deepEqual` in `internal/provider/provider.go`), the JSON
decoding performed by Go's `encoding/json` when unmarshalling into
`interface{}` values, and the provider lifecycle handlers `Configure`,
`Create`, `Update` and `ModifyPlan`.

Decoded JSON values are represented by the inductive `JsonValue`; Go decodes
JSON objects into `map[string]interface{}` values; those are modelled as
association lists with pairwise-distinct keys (duplicate keys are resolved
last-wins by the decoder, as Go's map assignment does).  JSON numbers, which
Go decodes into `float64`, are modelled as exact rationals `ℚ`; this captures
that equality of numbers is equality of the decoded numeric value, not of the
literal text.
-/

/-- Decoded JSON value, mirroring the dynamic `interface{}` values produced by
Go's `json.Unmarshal`: `nil`, `bool`, `float64` (here: `ℚ`), `string`,
`[]interface{}` and `map[string]interface{}` (here: association list with
distinct keys). -/
inductive JsonValue : Type where
  | null : JsonValue
  | bool (b : Bool) : JsonValue
  | num (q : ℚ) : JsonValue
  | str (s : String) : JsonValue
  | arr (elems : List JsonValue) : JsonValue
  | obj (members : List (String × JsonValue)) : JsonValue

/-- Go map lookup `vb[k]` on the association-list model: the value at the
first occurrence of key `k`, if any. -/
def lookupKey (k : String) : List (String × JsonValue) → Option JsonValue
  | [] => none
  | (k2, v) :: rest => if k = k2 then some v else lookupKey k rest

/-- Whether key `k` occurs in the association list (Go's `_, exists := m[k]`). -/
def containsKey (k : String) : List (String × JsonValue) → Bool
  | [] => false
  | (k2, _) :: rest => k == k2 || containsKey k rest

/-- Go map assignment `m[k] = v`: replace the value at an existing key,
otherwise append the binding.  Preserves distinctness of keys. -/
def insertKV (k : String) (v : JsonValue) : List (String × JsonValue) → List (String × JsonValue)
  | [] => [(k, v)]
  | (k2, v2) :: rest => if k = k2 then (k, v) :: rest else (k2, v2) :: insertKV k v rest

mutual

/-- Embedding of `deepEqual` (provider.go:378-406): recursive comparison of two
decoded JSON values.  Objects: equal lengths and every key/value of the first
found (by key) in the second; arrays: equal lengths and pointwise equal
elements; otherwise the Go dynamic comparison `a == b`, which is `false` when
the dynamic types differ and value equality when they coincide. -/
def deepEqual : JsonValue → JsonValue → Bool
  | .obj va, .obj vb => va.length == vb.length && deepEqualMembers va vb
  | .obj _, _ => false
  | .arr va, .arr vb => va.length == vb.length && deepEqualElems va vb
  | .arr _, _ => false
  | .null, .null => true
  | .bool x, .bool y => x == y
  | .num x, .num y => x == y
  | .str x, .str y => x == y
  | _, _ => false

/-- The object loop of `deepEqual` (provider.go:385-390): every binding of the
first map must be present in the second with a recursively equal value. -/
def deepEqualMembers : List (String × JsonValue) → List (String × JsonValue) → Bool
  | [], _ => true
  | (k, valA) :: rest, vb =>
    (match lookupKey k vb with
     | some valB => deepEqual valA valB
     | none => false) && deepEqualMembers rest vb

/-- The array loop of `deepEqual` (provider.go:397-401): pointwise comparison;
it is only reached after the length check, so the truncating base cases are
never hit on arguments of equal length. -/
def deepEqualElems : List JsonValue → List JsonValue → Bool
  | [], _ => true
  | _ :: _, [] => true
  | a :: as, b :: bs => deepEqual a b && deepEqualElems as bs

end

/-- Keys of an association list are pairwise distinct. -/
def keysDistinct : List (String × JsonValue) → Bool
  | [] => true
  | (k, _) :: rest => !containsKey k rest && keysDistinct rest

mutual

/-- Well-formedness invariant of values produced by the decoder: every object
(at any depth) has pairwise-distinct keys, as Go maps do by construction. -/
def wfValue : JsonValue → Bool
  | .obj ms => keysDistinct ms && wfMembers ms
  | .arr es => wfElems es
  | _ => true

/-- All members of an object carry well-formed values. -/
def wfMembers : List (String × JsonValue) → Bool
  | [] => true
  | (_, v) :: rest => wfValue v && wfMembers rest

/-- All elements of an array are well-formed. -/
def wfElems : List JsonValue → Bool
  | [] => true
  | v :: rest => wfValue v && wfElems rest

end

/-- Kind tag of a decoded JSON value (the dynamic type of the Go value). -/
inductive JsonKind : Type where
  | nullK | boolK | numK | strK | arrK | objK
deriving DecidableEq

/-- Kind of a value. -/
def kindOf : JsonValue → JsonKind
  | .null => .nullK
  | .bool _ => .boolK
  | .num _ => .numK
  | .str _ => .strK
  | .arr _ => .arrK
  | .obj _ => .objK

/-!
JSON text decoding, modelling Go's `encoding/json` `Unmarshal` into
`interface{}`.  The `encoding/json` package is a standard-library dependency
of the repository; it is not part of the repository's sources, so it is
modelled here from the JSON grammar it implements (RFC 8259, which the spec's
"parse each as JSON" refers to): optional whitespace, the literals `null`,
`true`, `false`, double-quoted strings with escapes, numbers without leading
zeros, and bracketed arrays and objects.  Decoding fails (returns `none`)
exactly when Go's `Unmarshal` reports an error, including on trailing
non-whitespace input.
-/

/-- JSON whitespace characters. -/
def isWs (c : Char) : Bool :=
  c == ' ' || c == '\t' || c == '\n' || c == '\r'

/-- Skip leading whitespace. -/
def skipWs : List Char → List Char
  | [] => []
  | c :: rest => if isWs c then skipWs rest else c :: rest

/-- Value of one hexadecimal digit. -/
def hexDigitVal (c : Char) : Option Nat :=
  if '0' ≤ c ∧ c ≤ '9' then some (c.toNat - '0'.toNat)
  else if 'a' ≤ c ∧ c ≤ 'f' then some (c.toNat - 'a'.toNat + 10)
  else if 'A' ≤ c ∧ c ≤ 'F' then some (c.toNat - 'A'.toNat + 10)
  else none

/-- Value of a four-hex-digit escape `\uXXXX`. -/
def hex4 (a b c d : Char) : Option Nat :=
  match hexDigitVal a, hexDigitVal b, hexDigitVal c, hexDigitVal d with
  | some x, some y, some z, some w => some (((x * 16 + y) * 16 + z) * 16 + w)
  | _, _, _, _ => none

/-- Single-character string escapes of JSON. -/
def escapeChar (c : Char) : Option Char :=
  match c with
  | '"' => some '"'
  | '\\' => some '\\'
  | '/' => some '/'
  | 'b' => some (Char.ofNat 8)
  | 'f' => some (Char.ofNat 12)
  | 'n' => some '\n'
  | 'r' => some '\r'
  | 't' => some '\t'
  | _ => none

/-- Decode the body of a JSON string after the opening quote, accumulating
decoded characters in reverse.  Surrogate pairs in `\u` escapes are combined;
unpaired surrogates decode to U+FFFD as in Go; unescaped control characters
are rejected.  The fuel only bounds the recursion; every step consumes at
least one input character, so fuel of one more than the input length never
runs out. -/
def parseStringBody : Nat → List Char → List Char → Option (String × List Char)
  | 0, _, _ => none
  | _ + 1, acc, '"' :: rest => some (String.mk acc.reverse, rest)
  | fuel + 1, acc, '\\' :: 'u' :: a :: b :: c :: d :: rest =>
    (match hex4 a b c d with
     | none => none
     | some n =>
       if 0xD800 ≤ n && n ≤ 0xDBFF then
         match rest with
         | '\\' :: 'u' :: e :: f :: g :: h :: rest2 =>
           (match hex4 e f g h with
            | none => parseStringBody fuel (Char.ofNat 0xFFFD :: acc) rest
            | some m =>
              if 0xDC00 ≤ m && m ≤ 0xDFFF then
                parseStringBody fuel
                  (Char.ofNat (0x10000 + (n - 0xD800) * 0x400 + (m - 0xDC00)) :: acc) rest2
              else
                parseStringBody fuel (Char.ofNat 0xFFFD :: acc) rest)
         | _ => parseStringBody fuel (Char.ofNat 0xFFFD :: acc) rest
       else if 0xDC00 ≤ n && n ≤ 0xDFFF then
         parseStringBody fuel (Char.ofNat 0xFFFD :: acc) rest
       else
         parseStringBody fuel (Char.ofNat n :: acc) rest)
  | fuel + 1, acc, '\\' :: e :: rest =>
    (match escapeChar e with
     | some ch => parseStringBody fuel (ch :: acc) rest
     | none => none)
  | fuel + 1, acc, c :: rest =>
    if c.toNat < 0x20 then none else parseStringBody fuel (c :: acc) rest
  | _ + 1, _, [] => none

/-- Accumulate the numeric value of a digit run. -/
def digitsToNat (acc : Nat) : List Char → Nat
  | [] => acc
  | c :: rest => digitsToNat (acc * 10 + (c.toNat - '0'.toNat)) rest

/-- Split off the maximal leading run of decimal digits. -/
def spanDigits : List Char → List Char × List Char
  | [] => ([], [])
  | c :: rest =>
    if c.isDigit then
      let (d, r) := spanDigits rest
      (c :: d, r)
    else ([], c :: rest)

/-- Decode the optional fractional part of a number. `intDigits` are the
integer-part digits already consumed. -/
def parseFracPart (intDigits : List Char) : List Char → Option (ℚ × List Char)
  | '.' :: rest =>
    (match spanDigits rest with
     | ([], _) => none
     | (fds, r) => some ((digitsToNat 0 (intDigits ++ fds) : ℚ) / 10 ^ fds.length, r))
  | cs => some ((digitsToNat 0 intDigits : ℚ), cs)

/-- Decode the optional exponent part of a number applied to mantissa `m`. -/
def parseExpPart (m : ℚ) (cs : List Char) : Option (ℚ × List Char) :=
  match cs with
  | 'e' :: rest | 'E' :: rest =>
    let signAndRest : Bool × List Char :=
      match rest with
      | '+' :: r => (false, r)
      | '-' :: r => (true, r)
      | r => (false, r)
    (match spanDigits signAndRest.2 with
     | ([], _) => none
     | (ds, r3) =>
       let e := digitsToNat 0 ds
       some ((if signAndRest.1 then m / 10 ^ e else m * 10 ^ e), r3))
  | _ => some (m, cs)

/-- Decode a JSON number: optional minus sign, integer part without leading
zeros, optional fraction, optional exponent.  The decoded value is the exact
rational the literal denotes. -/
def parseNumber (cs : List Char) : Option (ℚ × List Char) :=
  let signAndRest : Bool × List Char :=
    match cs with
    | '-' :: r => (true, r)
    | r => (false, r)
  match spanDigits signAndRest.2 with
  | ([], _) => none
  | (ds, r) =>
    if ds.length > 1 && ds.headD '0' == '0' then none
    else
      match parseFracPart ds r with
      | none => none
      | some (m, r2) =>
        match parseExpPart m r2 with
        | none => none
        | some (m2, r3) => some ((if signAndRest.1 then -m2 else m2), r3)

mutual

/-- Decode one JSON value from the input, fuel-bounded.  Mirrors the grammar
accepted by Go's `encoding/json` scanner. -/
def parseValue : Nat → List Char → Option (JsonValue × List Char)
  | 0, _ => none
  | fuel + 1, cs =>
    match skipWs cs with
    | 'n' :: 'u' :: 'l' :: 'l' :: rest => some (.null, rest)
    | 't' :: 'r' :: 'u' :: 'e' :: rest => some (.bool true, rest)
    | 'f' :: 'a' :: 'l' :: 's' :: 'e' :: rest => some (.bool false, rest)
    | '"' :: rest =>
      (match parseStringBody (rest.length + 1) [] rest with
       | some (s, r) => some (.str s, r)
       | none => none)
    | '{' :: rest =>
      (match skipWs rest with
       | '}' :: r2 => some (.obj [], r2)
       | cs2 =>
         match parseMembers fuel [] cs2 with
         | some (ms, r2) => some (.obj ms, r2)
         | none => none)
    | '[' :: rest =>
      (match skipWs rest with
       | ']' :: r2 => some (.arr [], r2)
       | cs2 =>
         match parseElems fuel [] cs2 with
         | some (es, r2) => some (.arr es, r2)
         | none => none)
    | c :: rest =>
      if c == '-' || c.isDigit then
        match parseNumber (c :: rest) with
        | some (q, r) => some (.num q, r)
        | none => none
      else none
    | [] => none

/-- Decode the members of an object after `{`, accumulating the bindings seen
so far (later duplicate keys overwrite earlier ones, as Go map stores do). -/
def parseMembers : Nat → List (String × JsonValue) → List Char →
    Option (List (String × JsonValue) × List Char)
  | 0, _, _ => none
  | fuel + 1, acc, cs =>
    match skipWs cs with
    | '"' :: rest =>
      (match parseStringBody (rest.length + 1) [] rest with
       | none => none
       | some (k, r1) =>
         match skipWs r1 with
         | ':' :: r2 =>
           (match parseValue fuel r2 with
            | none => none
            | some (v, r3) =>
              match skipWs r3 with
              | ',' :: r4 => parseMembers fuel (insertKV k v acc) r4
              | '}' :: r4 => some (insertKV k v acc, r4)
              | _ => none)
         | _ => none)
    | _ => none

/-- Decode the elements of an array after `[`, accumulating in reverse. -/
def parseElems : Nat → List JsonValue → List Char →
    Option (List JsonValue × List Char)
  | 0, _, _ => none
  | fuel + 1, acc, cs =>
    match parseValue fuel cs with
    | none => none
    | some (v, r) =>
      match skipWs r with
      | ',' :: r2 => parseElems fuel (v :: acc) r2
      | ']' :: r2 => some ((v :: acc).reverse, r2)
      | _ => none

end

/-- Embedding of `json.Unmarshal(data, &v)` for `v interface{}` on the string
`s`: decode one value, then require only whitespace to remain.  `none` models
a non-nil unmarshalling error. -/
def parseJson (s : String) : Option JsonValue :=
  match parseValue (s.length + 1) s.toList with
  | some (v, rest) => if skipWs rest = [] then some v else none
  | none => none

/-- Embedding of `jsonEqual` (provider.go:366-375): decode both strings; any
decoding error makes the result `false`; otherwise compare with `deepEqual`. -/
def jsonEqual (a b : String) : Bool :=
  match parseJson a with
  | none => false
  | some objA =>
    match parseJson b with
    | none => false
    | some objB => deepEqual objA objB

/-!
Provider lifecycle handlers.  Terraform framework `types.String` values are
modelled as `Option String` (`none` is the null value); `ValueString()` on a
null value returns the empty string, as in the framework.  The `client`
package of the repository is not among the provided sources, so the little of
it these handlers touch (the payload and overlay records and the client
constructor) is modelled from the spec's data model.
-/

/-- Terraform framework `types.String`: a string value or null. -/
abbrev TFString : Type := Option String

/-- The framework's `ValueString()`: the value, or `""` for null. -/
def tfValueString (s : TFString) : String :=
  match s with
  | some v => v
  | none => ""

/-- The framework's `IsNull()`. -/
def tfIsNull (s : TFString) : Bool :=
  match s with
  | some _ => false
  | none => true

/-- The framework's `types.String.Equal`: null equals null, values compare as
strings. -/
def tfEqual (a b : TFString) : Bool :=
  match a, b with
  | some x, some y => x == y
  | none, none => true
  | _, _ => false

/-- Embedding of `stringEqualOrBothEmpty` (provider.go:356-363): true when
both values are empty (null or the empty string), otherwise plain equality. -/
def stringEqualOrBothEmpty (a b : TFString) : Bool :=
  let aEmpty := tfIsNull a || tfValueString a == ""
  let bEmpty := tfIsNull b || tfValueString b == ""
  if aEmpty && bEmpty then true
  else tfEqual a b

/-- Embedding of `OverlayResourceModel` (provider.go:207-216). -/
structure OverlayResourceModel : Type where
  id : TFString
  name : TFString
  description : TFString
  organizationId : TFString
  data : TFString
  createdBy : TFString
  createdAt : TFString
  updatedAt : TFString

/-- Modelled from the spec: the `client.OverlayPayload` record sent on create
and update — name, description and the raw JSON data blob (the repository's
`client` package is not among the sources). -/
structure OverlayPayload : Type where
  name : String
  description : String
  data : String

/-- Modelled from the spec: the `client.Overlay` record returned by the remote
API — identifier, name, description, owning organization, raw JSON data,
creator and the two timestamps. -/
structure Overlay : Type where
  id : String
  name : String
  description : String
  organizationId : String
  data : String
  createdBy : String
  createdAt : String
  updatedAt : String

/-- Modelled from the spec: `client.NewClient(apiURL, token)` packages the
endpoint and credential; nothing else about the client is relevant here. -/
structure Client : Type where
  apiURL : String
  token : String

/-- Embedding of `RevosProviderModel` (provider.go:27-30). -/
structure RevosProviderModel : Type where
  apiURL : TFString
  token : TFString

/-- Outcome of `Configure`: the error summaries added to the diagnostics and
the constructed client, if any. -/
structure ConfigureResult : Type where
  errors : List String
  client : Option Client

/-- Embedding of `RevosProvider.Configure` (provider.go:59-101): each setting
starts from its environment variable and is overridden by a non-null explicit
value; an empty resolved value adds a fatal error; the client is constructed
only when no error was added. -/
def configureProvider (data : RevosProviderModel) (envURL envToken : String) :
    ConfigureResult :=
  let apiURL := if tfIsNull data.apiURL then envURL else tfValueString data.apiURL
  let token := if tfIsNull data.token then envToken else tfValueString data.token
  let errs :=
    (if apiURL == "" then ["Missing API URL"] else []) ++
    (if token == "" then ["Missing Token"] else [])
  if errs.isEmpty then { errors := [], client := some { apiURL := apiURL, token := token } }
  else { errors := errs, client := none }

/-- Outcome of a create or update handler: error summaries, whether the remote
API was called, and the state written back (`none` when the handler returned
without setting state, leaving the tracked state unchanged). -/
structure HandlerResult : Type where
  errors : List String
  apiCalled : Bool
  state : Option OverlayResourceModel

/-- Embedding of `OverlayResource.Create` (provider.go:276-313): validate the
planned data as JSON (a failed `json.Unmarshal` into `json.RawMessage` adds
the error and returns before any remote call); otherwise send the payload,
surface a client error, or write back the plan with the computed fields from
the API response. -/
def createOverlay (plan : OverlayResourceModel)
    (api : OverlayPayload → Except String Overlay) : HandlerResult :=
  match parseJson (tfValueString plan.data) with
  | none => { errors := ["Invalid JSON in data"], apiCalled := false, state := none }
  | some _ =>
    let payload : OverlayPayload :=
      { name := tfValueString plan.name
        description := tfValueString plan.description
        data := tfValueString plan.data }
    match api payload with
    | .error _ => { errors := ["Client Error"], apiCalled := true, state := none }
    | .ok overlay =>
      { errors := []
        apiCalled := true
        state := some { plan with
          id := some overlay.id
          organizationId := some overlay.organizationId
          createdBy := some overlay.createdBy
          createdAt := some overlay.createdAt
          updatedAt := some overlay.updatedAt } }

/-- Embedding of `OverlayResource.Update` (provider.go:408-444): same JSON
validation before the remote call; on success the computed fields other than
the identifier are refreshed from the response. -/
def updateOverlay (plan : OverlayResourceModel)
    (api : String → OverlayPayload → Except String Overlay) : HandlerResult :=
  match parseJson (tfValueString plan.data) with
  | none => { errors := ["Invalid JSON in data"], apiCalled := false, state := none }
  | some _ =>
    let payload : OverlayPayload :=
      { name := tfValueString plan.name
        description := tfValueString plan.description
        data := tfValueString plan.data }
    match api (tfValueString plan.id) payload with
    | .error _ => { errors := ["Client Error"], apiCalled := true, state := none }
    | .ok overlay =>
      { errors := []
        apiCalled := true
        state := some { plan with
          organizationId := some overlay.organizationId
          createdBy := some overlay.createdBy
          createdAt := some overlay.createdAt
          updatedAt := some overlay.updatedAt } }

/-- Embedding of `OverlayResource.ModifyPlan` (provider.go:165-197) for the
non-create, non-destroy case: when name, description (null and empty string
identified) and data (semantically, per `jsonEqual`) are unchanged, the
computed fields and the data field are copied from state into the plan. -/
def modifyPlan (plan state : OverlayResourceModel) : OverlayResourceModel :=
  let nameUnchanged := tfEqual plan.name state.name
  let descUnchanged := stringEqualOrBothEmpty plan.description state.description
  let dataUnchanged := jsonEqual (tfValueString plan.data) (tfValueString state.data)
  if nameUnchanged && descUnchanged && dataUnchanged then
    { plan with
      organizationId := state.organizationId
      createdBy := state.createdBy
      createdAt := state.createdAt
      updatedAt := state.updatedAt
      data := state.data }
  else plan

/-- Resolution of one provider setting, as `Configure` performs it: the
environment variable's value, overridden by a non-null explicit value. -/
def resolveSetting (explicit : TFString) (env : String) : String :=
  if tfIsNull explicit then env else tfValueString explicit

/-! Key reordering.  `ReorderOf a b` states that `b` is obtained from `a` by
permuting the members of any of its objects, at any nesting depth, leaving
array order and all scalars untouched. -/

mutual

inductive ReorderOf : JsonValue → JsonValue → Prop where
  | null : ReorderOf .null .null
  | bool (b : Bool) : ReorderOf (.bool b) (.bool b)
  | num (q : ℚ) : ReorderOf (.num q) (.num q)
  | str (s : String) : ReorderOf (.str s) (.str s)
  | arr {xs ys : List JsonValue} : ReorderElems xs ys →
      ReorderOf (.arr xs) (.arr ys)
  | obj {as cs bs : List (String × JsonValue)} : ReorderMembers as cs →
      cs.Perm bs → ReorderOf (.obj as) (.obj bs)

inductive ReorderElems : List JsonValue → List JsonValue → Prop where
  | nil : ReorderElems [] []
  | cons {x y : JsonValue} {xs ys : List JsonValue} : ReorderOf x y →
      ReorderElems xs ys → ReorderElems (x :: xs) (y :: ys)

inductive ReorderMembers :
    List (String × JsonValue) → List (String × JsonValue) → Prop where
  | nil : ReorderMembers [] []
  | cons {k : String} {v v2 : JsonValue}
      {as cs : List (String × JsonValue)} : ReorderOf v v2 →
      ReorderMembers as cs → ReorderMembers ((k, v) :: as) ((k, v2) :: cs)

end

/-! Association-list lemmas. -/

theorem containsKey_eq_mem_keys (k : String) (l : List (String × JsonValue)) :
    containsKey k l = true ↔ k ∈ l.map Prod.fst := by
  induction l with
  | nil => simp [containsKey]
  | cons kv rest ih =>
    obtain ⟨k2, v2⟩ := kv
    simp [containsKey, ih]

theorem keysDistinct_iff_nodup (l : List (String × JsonValue)) :
    keysDistinct l = true ↔ (l.map Prod.fst).Nodup := by
  induction l with
  | nil => simp [keysDistinct]
  | cons kv rest ih =>
    obtain ⟨k2, v2⟩ := kv
    simp only [keysDistinct, Bool.and_eq_true, Bool.not_eq_true', List.map_cons,
      List.nodup_cons, ih]
    constructor
    · rintro ⟨h1, h2⟩
      refine ⟨fun hm => ?_, h2⟩
      rw [← containsKey_eq_mem_keys] at hm
      simp [hm] at h1
    · rintro ⟨h1, h2⟩
      refine ⟨?_, h2⟩
      rw [← Bool.not_eq_true, containsKey_eq_mem_keys]
      exact h1

theorem lookupKey_mem {k : String} {v : JsonValue} {l : List (String × JsonValue)}
    (h : lookupKey k l = some v) : (k, v) ∈ l := by
  induction l with
  | nil => simp [lookupKey] at h
  | cons kv rest ih =>
    obtain ⟨k2, v2⟩ := kv
    simp only [lookupKey] at h
    by_cases hk : k = k2
    · simp [hk] at h
      simp [hk, h]
    · simp [hk] at h
      exact List.mem_cons_of_mem _ (ih h)

theorem lookupKey_of_mem_distinct {l : List (String × JsonValue)}
    (hd : keysDistinct l = true) {k : String} {v : JsonValue}
    (hm : (k, v) ∈ l) : lookupKey k l = some v := by
  induction l with
  | nil => simp at hm
  | cons kv rest ih =>
    obtain ⟨k2, v2⟩ := kv
    simp only [keysDistinct, Bool.and_eq_true, Bool.not_eq_true'] at hd
    rcases List.mem_cons.mp hm with heq | hmem
    · obtain ⟨hk, hv⟩ := Prod.mk.injEq .. ▸ heq
      simp [lookupKey, hk, hv]
    · have hne : k ≠ k2 := by
        intro hk
        subst hk
        have : containsKey k rest = true := by
          rw [containsKey_eq_mem_keys]
          exact List.mem_map_of_mem Prod.fst hmem
        simp [this] at hd
      simp only [lookupKey, if_neg hne]
      exact ih hd.2 hmem

theorem lookupKey_isSome_iff {k : String} {l : List (String × JsonValue)} :
    (lookupKey k l).isSome = true ↔ containsKey k l = true := by
  induction l with
  | nil => simp [lookupKey, containsKey]
  | cons kv rest ih =>
    obtain ⟨k2, v2⟩ := kv
    simp only [lookupKey, containsKey]
    by_cases hk : k = k2
    · simp [hk]
    · have : (k == k2) = false := by simpa using hk
      simp [hk, this, ih]

/-! Characterizations of the comparator's loops. -/

theorem deepEqualMembers_iff (as bs : List (String × JsonValue)) :
    deepEqualMembers as bs = true ↔
      ∀ kv ∈ as, ∃ v2, lookupKey kv.1 bs = some v2 ∧ deepEqual kv.2 v2 = true := by
  induction as with
  | nil => simp [deepEqualMembers]
  | cons kv rest ih =>
    obtain ⟨k, v⟩ := kv
    rcases h : lookupKey k bs with _ | v2 <;>
      simp [deepEqualMembers, h, ih, Bool.and_eq_true]

theorem deepEqualElems_iff (as bs : List JsonValue) :
    deepEqualElems as bs = true ↔ ∀ p ∈ as.zip bs, deepEqual p.1 p.2 = true := by
  induction as generalizing bs with
  | nil => simp [deepEqualElems]
  | cons a rest ih =>
    cases bs with
    | nil => simp [deepEqualElems]
    | cons b bs2 => simp [deepEqualElems, ih, Bool.and_eq_true]

theorem deepEqual_obj_iff (as bs : List (String × JsonValue)) :
    deepEqual (.obj as) (.obj bs) = true ↔
      as.length = bs.length ∧
      ∀ kv ∈ as, ∃ v2, lookupKey kv.1 bs = some v2 ∧ deepEqual kv.2 v2 = true := by
  simp [deepEqual, Bool.and_eq_true, deepEqualMembers_iff]

theorem deepEqual_arr_iff (xs ys : List JsonValue) :
    deepEqual (.arr xs) (.arr ys) = true ↔
      xs.length = ys.length ∧
      ∀ (i : Nat) (h1 : i < xs.length) (h2 : i < ys.length),
        deepEqual (xs.get ⟨i, h1⟩) (ys.get ⟨i, h2⟩) = true := by
  simp only [deepEqual, Bool.and_eq_true, beq_iff_eq, deepEqualElems_iff]
  constructor
  · rintro ⟨hlen, hz⟩
    refine ⟨hlen, fun i h1 h2 => ?_⟩
    refine hz (xs.get ⟨i, h1⟩, ys.get ⟨i, h2⟩) ?_
    rw [List.mem_iff_getElem]
    refine ⟨i, ?_, ?_⟩
    · simpa [List.length_zip, hlen] using h2
    · simp [List.getElem_zip]
  · rintro ⟨hlen, hg⟩
    refine ⟨hlen, fun p hp => ?_⟩
    rw [List.mem_iff_getElem] at hp
    obtain ⟨i, hi, hpe⟩ := hp
    have h1 : i < xs.length := by
      simp [List.length_zip] at hi
      omega
    have h2 : i < ys.length := by
      simp [List.length_zip] at hi
      omega
    have := hg i h1 h2
    rw [← hpe]
    simpa [List.getElem_zip] using this

/-! Well-formedness lemmas. -/

theorem wfMembers_iff (ms : List (String × JsonValue)) :
    wfMembers ms = true ↔ ∀ kv ∈ ms, wfValue kv.2 = true := by
  induction ms with
  | nil => simp [wfMembers]
  | cons kv rest ih =>
    obtain ⟨k, v⟩ := kv
    simp [wfMembers, ih, Bool.and_eq_true]

theorem wfElems_iff (es : List JsonValue) :
    wfElems es = true ↔ ∀ v ∈ es, wfValue v = true := by
  induction es with
  | nil => simp [wfElems]
  | cons v rest ih => simp [wfElems, ih, Bool.and_eq_true]

theorem wfElems_reverse (es : List JsonValue) :
    wfElems es.reverse = true ↔ wfElems es = true := by
  simp [wfElems_iff]

theorem mem_insertKV {kv : String × JsonValue} {k : String} {v : JsonValue}
    {l : List (String × JsonValue)} (h : kv ∈ insertKV k v l) :
    kv = (k, v) ∨ kv ∈ l := by
  induction l with
  | nil => simpa [insertKV] using h
  | cons kv2 rest ih =>
    obtain ⟨k2, v2⟩ := kv2
    by_cases hk : k = k2
    · simp only [insertKV, if_pos hk] at h
      rcases List.mem_cons.mp h with h | h
      · exact Or.inl h
      · exact Or.inr (List.mem_cons_of_mem _ h)
    · simp only [insertKV, if_neg hk] at h
      rcases List.mem_cons.mp h with h | h
      · exact Or.inr (by simp [h])
      · rcases ih h with h | h
        · exact Or.inl h
        · exact Or.inr (List.mem_cons_of_mem _ h)

theorem containsKey_insertKV (k2 k : String) (v : JsonValue)
    (l : List (String × JsonValue)) :
    containsKey k2 (insertKV k v l) = (k2 == k || containsKey k2 l) := by
  induction l with
  | nil => simp [insertKV, containsKey]
  | cons kv2 rest ih =>
    obtain ⟨k3, v3⟩ := kv2
    by_cases hk : k = k3
    · subst hk
      simp only [insertKV, if_pos rfl, containsKey]
      cases h : k2 == k <;> simp [h]
    · simp only [insertKV, if_neg hk, containsKey, ih]
      cases h : k2 == k3 <;> cases h2 : k2 == k <;> simp [h, h2]

theorem keysDistinct_insertKV {l : List (String × JsonValue)}
    (hd : keysDistinct l = true) (k : String) (v : JsonValue) :
    keysDistinct (insertKV k v l) = true := by
  induction l with
  | nil => simp [insertKV, keysDistinct, containsKey]
  | cons kv2 rest ih =>
    obtain ⟨k3, v3⟩ := kv2
    simp only [keysDistinct, Bool.and_eq_true, Bool.not_eq_true'] at hd
    by_cases hk : k = k3
    · subst hk
      simp only [insertKV, if_pos rfl, keysDistinct, Bool.and_eq_true,
        Bool.not_eq_true']
      exact ⟨hd.1, hd.2⟩
    · simp only [insertKV, if_neg hk, keysDistinct, Bool.and_eq_true,
        Bool.not_eq_true', containsKey_insertKV]
    
      refine ⟨?_, ih hd.2⟩
      have h1 : (k3 == k) = false := by
        simp
        intro h
        exact hk h.symm
      simp [h1, hd.1]

theorem wfMembers_insertKV {l : List (String × JsonValue)}
    (hw : wfMembers l = true) {v : JsonValue} (hv : wfValue v = true)
    (k : String) : wfMembers (insertKV k v l) = true := by
  rw [wfMembers_iff]
  intro kv hkv
  rcases mem_insertKV hkv with h | h
  · simpa [h] using hv
  · exact (wfMembers_iff l).mp hw kv h

/-! The decoder only produces well-formed values: every object at any depth
has pairwise-distinct keys. -/

theorem parse_wf_all : ∀ fuel : Nat,
    (∀ cs v rest, parseValue fuel cs = some (v, rest) → wfValue v = true) ∧
    (∀ acc cs ms rest, keysDistinct acc = true → wfMembers acc = true →
      parseMembers fuel acc cs = some (ms, rest) →
      keysDistinct ms = true ∧ wfMembers ms = true) ∧
    (∀ acc cs es rest, wfElems acc = true →
      parseElems fuel acc cs = some (es, rest) → wfElems es = true) := by
  intro fuel
  induction fuel with
  | zero => simp [parseValue, parseMembers, parseElems]
  | succ n ih =>
    obtain ⟨ihV, ihM, ihE⟩ := ih
    refine ⟨?_, ?_, ?_⟩
    · intro cs v rest h
      simp only [parseValue] at h
      split at h
      · cases h; rfl
      · cases h; rfl
      · cases h; rfl
      · split at h
        · cases h; rfl
        · exact absurd h (by simp)
      · split at h
        · cases h; decide
        · split at h
          · cases h
            have := ihM [] _ _ _ rfl rfl (by assumption)
            simp [wfValue, Bool.and_eq_true]
            exact this
          · exact absurd h (by simp)
      · split at h
        · cases h; decide
        · split at h
          · cases h
            have := ihE [] _ _ _ rfl (by assumption)
            simpa [wfValue] using this
          · exact absurd h (by simp)
      · split at h
        · split at h
          · cases h; rfl
          · exact absurd h (by simp)
        · exact absurd h (by simp)
      · exact absurd h (by simp)
    · intro acc cs ms rest hkd hwm h
      simp only [parseMembers] at h
      split at h
      · split at h
        · exact absurd h (by simp)
        · split at h
          · split at h
            · exact absurd h (by simp)
            · split at h
              · exact ihM _ _ _ _ (keysDistinct_insertKV hkd _ _)
                  (wfMembers_insertKV hwm (ihV _ _ _ (by assumption)) _) h
              · cases h
                exact ⟨keysDistinct_insertKV hkd _ _,
                  wfMembers_insertKV hwm (ihV _ _ _ (by assumption)) _⟩
              · exact absurd h (by simp)
          · exact absurd h (by simp)
      · exact absurd h (by simp)
    · intro acc cs es rest hwe h
      simp only [parseElems] at h
      split at h
      · exact absurd h (by simp)
      · split at h
        · refine ihE _ _ _ _ ?_ h
          simp only [wfElems, Bool.and_eq_true]
          exact ⟨ihV _ _ _ (by assumption), hwe⟩
        · cases h
          rw [wfElems_reverse]
          simp only [wfElems, Bool.and_eq_true]
          exact ⟨ihV _ _ _ (by assumption), hwe⟩
        · exact absurd h (by simp)

theorem parseJson_wf {s : String} {v : JsonValue}
    (h : parseJson s = some v) : wfValue v = true := by
  simp only [parseJson] at h
  split at h
  · split at h
    · cases h
      exact (parse_wf_all _).1 _ _ _ (by assumption)
    · exact absurd h (by simp)
  · exact absurd h (by simp)

/-! Reflexivity of the comparator on well-formed values. -/

mutual

theorem deepEqual_refl : ∀ v : JsonValue, wfValue v = true → deepEqual v v = true
  | .null, _ => rfl
  | .bool b, _ => by simp [deepEqual]
  | .num q, _ => by simp [deepEqual]
  | .str s, _ => by simp [deepEqual]
  | .arr es, h => by
    simp only [deepEqual, Bool.and_eq_true, beq_iff_eq, eq_self_iff_true, true_and]
    exact deepEqualElems_self es (by simpa [wfValue] using h)
  | .obj ms, h => by
    simp only [deepEqual, Bool.and_eq_true, beq_iff_eq, eq_self_iff_true, true_and]
    have h2 : keysDistinct ms = true ∧ wfMembers ms = true := by
      simpa [wfValue, Bool.and_eq_true] using h
    refine deepEqualMembers_self ms ms (fun kv hkv => ?_)
    exact ⟨lookupKey_of_mem_distinct h2.1 (by simpa using hkv),
      (wfMembers_iff ms).mp h2.2 kv hkv⟩

theorem deepEqualMembers_self : ∀ (sub ms : List (String × JsonValue)),
    (∀ kv ∈ sub, lookupKey kv.1 ms = some kv.2 ∧ wfValue kv.2 = true) →
    deepEqualMembers sub ms = true
  | [], _, _ => rfl
  | (k, v) :: rest, ms, h => by
    have h1 := h (k, v) (by simp)
    simp only [deepEqualMembers, Bool.and_eq_true]
    rw [h1.1]
    exact ⟨deepEqual_refl v h1.2,
      deepEqualMembers_self rest ms (fun kv hkv => h kv (List.mem_cons_of_mem _ hkv))⟩

theorem deepEqualElems_self : ∀ es : List JsonValue, wfElems es = true →
    deepEqualElems es es = true
  | [], _ => rfl
  | v :: rest, h => by
    simp only [wfElems, Bool.and_eq_true] at h
    simp only [deepEqualElems, Bool.and_eq_true]
    exact ⟨deepEqual_refl v h.1, deepEqualElems_self rest h.2⟩

end

/-! Size bounds used for the strong inductions below. -/

theorem sizeOf_val_lt_obj {k : String} {v : JsonValue}
    {ms : List (String × JsonValue)} (h : (k, v) ∈ ms) :
    sizeOf v < sizeOf (JsonValue.obj ms) := by
  have h1 := List.sizeOf_lt_of_mem h
  have h2 : sizeOf (JsonValue.obj ms) = 1 + sizeOf ms := by simp
  have h3 : sizeOf (k, v) = 1 + sizeOf k + sizeOf v := by simp
  omega

theorem sizeOf_elem_lt_arr {v : JsonValue} {es : List JsonValue} (h : v ∈ es) :
    sizeOf v < sizeOf (JsonValue.arr es) := by
  have h1 := List.sizeOf_lt_of_mem h
  have h2 : sizeOf (JsonValue.arr es) = 1 + sizeOf es := by simp
  omega

/-! Symmetry of the comparator on well-formed values. -/

theorem deepEqual_symm_aux : ∀ n : Nat, ∀ a b : JsonValue, sizeOf a < n →
    wfValue a = true → wfValue b = true →
    deepEqual a b = true → deepEqual b a = true := by
  intro n
  induction n with
  | zero =>
    intro a b hn
    exact absurd hn (Nat.not_lt_zero _)
  | succ n ih =>
    intro a b hn hwa hwb hab
    cases a with
    | null => cases b <;> first | rfl | simp [deepEqual] at hab
    | bool x =>
      cases b <;> simp [deepEqual] at hab ⊢
      simp [hab]
    | num x =>
      cases b <;> simp [deepEqual] at hab ⊢
      simp [hab]
    | str x =>
      cases b <;> simp [deepEqual] at hab ⊢
      simp [hab]
    | arr xs =>
      cases b with
      | arr ys =>
        rw [deepEqual_arr_iff] at hab
        rw [deepEqual_arr_iff]
        obtain ⟨hlen, hget⟩ := hab
        refine ⟨hlen.symm, fun i h1 h2 => ?_⟩
        refine ih _ _ ?_ ?_ ?_ (hget i h2 h1)
        · have := sizeOf_elem_lt_arr (List.get_mem xs i h2)
          omega
        · exact (wfElems_iff xs).mp (by simpa [wfValue] using hwa) _
            (List.get_mem xs i h2)
        · exact (wfElems_iff ys).mp (by simpa [wfValue] using hwb) _
            (List.get_mem ys i h1)
      | null => simp [deepEqual] at hab
      | bool y => simp [deepEqual] at hab
      | num y => simp [deepEqual] at hab
      | str y => simp [deepEqual] at hab
      | obj ms => simp [deepEqual] at hab
    | obj as =>
      cases b with
      | obj bs =>
        have hA : keysDistinct as = true ∧ wfMembers as = true := by
          simpa [wfValue, Bool.and_eq_true] using hwa
        have hB : keysDistinct bs = true ∧ wfMembers bs = true := by
          simpa [wfValue, Bool.and_eq_true] using hwb
        rw [deepEqual_obj_iff] at hab
        obtain ⟨hlen, hmem⟩ := hab
        have hsub : as.map Prod.fst ⊆ bs.map Prod.fst := by
          intro key hkey
          obtain ⟨⟨k, v⟩, hkv, hfst⟩ := List.mem_map.mp hkey
          obtain ⟨v2, hlkb, _⟩ := hmem (k, v) hkv
          replace hlkb : lookupKey k bs = some v2 := hlkb
          replace hfst : k = key := hfst
          subst hfst
          exact List.mem_map_of_mem Prod.fst (lookupKey_mem hlkb)
        have hperm : (as.map Prod.fst).Perm (bs.map Prod.fst) := by
          refine List.Subperm.perm_of_length_le
            (List.Nodup.subperm ((keysDistinct_iff_nodup as).mp hA.1) hsub) ?_
          simpa using hlen.ge
        rw [deepEqual_obj_iff]
        refine ⟨hlen.symm, fun kv2 hkv2 => ?_⟩
        have hkey : kv2.1 ∈ as.map Prod.fst := by
          refine hperm.symm.subset ?_
          exact List.mem_map_of_mem Prod.fst hkv2
        obtain ⟨kv1, hkv, hfst⟩ := List.mem_map.mp hkey
        obtain ⟨k, v⟩ := kv1
        replace hfst : k = kv2.1 := hfst
        obtain ⟨v2, hlkb, hde⟩ := hmem (k, v) hkv
        replace hlkb : lookupKey k bs = some v2 := hlkb
        replace hde : deepEqual v v2 = true := hde
        have hlk2 : lookupKey k bs = some kv2.2 := by
          rw [hfst]
          exact lookupKey_of_mem_distinct hB.1 (by simpa using hkv2)
        have hv2 : v2 = kv2.2 := by
          rw [hlkb] at hlk2
          exact Option.some.inj hlk2
        subst hv2
        refine ⟨v, ?_, ?_⟩
        · rw [← hfst]
          exact lookupKey_of_mem_distinct hA.1 hkv
        · refine ih _ _ ?_ ?_ ?_ hde
          · have := sizeOf_val_lt_obj hkv
            omega
          · exact (wfMembers_iff as).mp hA.2 (k, v) hkv
          · exact (wfMembers_iff bs).mp hB.2 kv2 hkv2
      | null => simp [deepEqual] at hab
      | bool y => simp [deepEqual] at hab
      | num y => simp [deepEqual] at hab
      | str y => simp [deepEqual] at hab
      | arr es => simp [deepEqual] at hab

theorem deepEqual_symm {a b : JsonValue} (hwa : wfValue a = true)
    (hwb : wfValue b = true) (h : deepEqual a b = true) :
    deepEqual b a = true :=
  deepEqual_symm_aux (sizeOf a + 1) a b (Nat.lt_succ_self _) hwa hwb h

theorem deepEqual_comm {a b : JsonValue} (hwa : wfValue a = true)
    (hwb : wfValue b = true) : deepEqual a b = deepEqual b a := by
  cases h1 : deepEqual a b with
  | true => exact (deepEqual_symm hwa hwb h1).symm
  | false =>
    cases h2 : deepEqual b a with
    | true => exact absurd (deepEqual_symm hwb hwa h2) (by simp [h1])
    | false => rfl

theorem jsonEqual_comm (a b : String) : jsonEqual a b = jsonEqual b a := by
  simp only [jsonEqual]
  rcases ha : parseJson a with _ | va <;> rcases hb : parseJson b with _ | vb
  · rfl
  · rfl
  · rfl
  · exact deepEqual_comm (parseJson_wf ha) (parseJson_wf hb)

theorem reorderElems_length {xs ys : List JsonValue}
    (h : ReorderElems xs ys) : xs.length = ys.length := by
  induction xs generalizing ys with
  | nil => cases h; rfl
  | cons x rest ih =>
    cases h with
    | cons _ hrest => simpa using ih hrest

theorem reorderElems_zip_mem {xs ys : List JsonValue}
    (h : ReorderElems xs ys) : ∀ p ∈ xs.zip ys, ReorderOf p.1 p.2 := by
  induction xs generalizing ys with
  | nil => simp
  | cons x rest ih =>
    cases h with
    | cons hxy hrest =>
      intro p hp
      rcases List.mem_cons.mp hp with h1 | h1
      · simpa [h1] using hxy
      · exact ih hrest p h1

theorem reorderMembers_length {as cs : List (String × JsonValue)}
    (h : ReorderMembers as cs) : as.length = cs.length := by
  induction as generalizing cs with
  | nil => cases h; rfl
  | cons kv rest ih =>
    obtain ⟨k, v⟩ := kv
    cases h with
    | cons _ hrest => simpa using ih hrest

theorem reorderMembers_keys_eq {as cs : List (String × JsonValue)}
    (h : ReorderMembers as cs) : as.map Prod.fst = cs.map Prod.fst := by
  induction as generalizing cs with
  | nil => cases h; rfl
  | cons kv rest ih =>
    obtain ⟨k, v⟩ := kv
    cases h with
    | cons _ hrest => simpa using ih hrest

theorem reorderMembers_lookup {as cs : List (String × JsonValue)}
    (h : ReorderMembers as cs) {k : String} {v : JsonValue}
    (hm : (k, v) ∈ as) : ∃ v2, (k, v2) ∈ cs ∧ ReorderOf v v2 := by
  induction as generalizing cs with
  | nil => simp at hm
  | cons kv rest ih =>
    obtain ⟨k1, v1⟩ := kv
    cases h with
    | cons hvv hrest =>
      rcases List.mem_cons.mp hm with h1 | h1
      · obtain ⟨hk, hv⟩ := Prod.mk.injEq .. ▸ h1
        subst hk
        subst hv
        exact ⟨_, List.mem_cons_self .., hvv⟩
      · obtain ⟨v2, hv2, hr⟩ := ih hrest h1
        exact ⟨v2, List.mem_cons_of_mem _ hv2, hr⟩

/-- Reordering object keys is invisible to the comparator: a well-formed value
is `deepEqual` to any key-reordering of itself. -/
theorem deepEqual_of_reorder_aux : ∀ n : Nat, ∀ a b : JsonValue,
    sizeOf a < n → wfValue a = true → ReorderOf a b →
    deepEqual a b = true := by
  intro n
  induction n with
  | zero =>
    intro a b hn
    exact absurd hn (Nat.not_lt_zero _)
  | succ n ih =>
    intro a b hn hwa hro
    cases hro with
    | null => rfl
    | bool b => simp [deepEqual]
    | num q => simp [deepEqual]
    | str s => simp [deepEqual]
    | arr hes =>
      rename_i xs ys
      rw [deepEqual_arr_iff]
      refine ⟨(reorderElems_length hes), fun i h1 h2 => ?_⟩
      refine ih _ _ ?_ ?_ ?_
      · have := sizeOf_elem_lt_arr (List.get_mem xs i h1)
        omega
      · exact (wfElems_iff xs).mp (by simpa [wfValue] using hwa) _
          (List.get_mem xs i h1)
      · refine reorderElems_zip_mem hes (xs.get ⟨i, h1⟩, ys.get ⟨i, h2⟩) ?_
        rw [List.mem_iff_getElem]
        refine ⟨i, ?_, ?_⟩
        · simp [List.length_zip, (reorderElems_length hes)] at h1 h2 ⊢
          omega
        · simp [List.getElem_zip]
    | obj hms hperm =>
      rename_i as cs bs
      have hA : keysDistinct as = true ∧ wfMembers as = true := by
        simpa [wfValue, Bool.and_eq_true] using hwa
      have hkdB : keysDistinct bs = true := by
        rw [keysDistinct_iff_nodup]
        have hp : (cs.map Prod.fst).Perm (bs.map Prod.fst) := hperm.map Prod.fst
        rw [← hp.nodup_iff, ← (reorderMembers_keys_eq hms)]
        exact (keysDistinct_iff_nodup as).mp hA.1
      rw [deepEqual_obj_iff]
      constructor
      · rw [(reorderMembers_length hms)]
        exact hperm.length_eq
      · rintro ⟨k, v⟩ hkv
        obtain ⟨v2, hv2, hr⟩ := reorderMembers_lookup hms hkv
        refine ⟨v2, ?_, ?_⟩
        · exact lookupKey_of_mem_distinct hkdB (hperm.mem_iff.mp hv2)
        · refine ih _ _ ?_ ?_ hr
          · show sizeOf v < n
            have := sizeOf_val_lt_obj hkv
            omega
          · exact (wfMembers_iff as).mp hA.2 (k, v) hkv

theorem deepEqual_of_reorder {a b : JsonValue} (hwa : wfValue a = true)
    (hro : ReorderOf a b) : deepEqual a b = true :=
  deepEqual_of_reorder_aux (sizeOf a + 1) a b (Nat.lt_succ_self _) hwa hro

/-!
Claim theorems.
-/

/-- C1: for every valid JSON document and every document obtained from it by
reordering the keys of any of its objects at any nesting depth, the comparator
`jsonEqual` applied to the two serialized documents returns equal. -/
theorem C1_reorder_keys_equal (s t : String) (a b : JsonValue)
    (hs : parseJson s = some a) (ht : parseJson t = some b)
    (hro : ReorderOf a b) : jsonEqual s t = true := by
  simp only [jsonEqual, hs, ht]
  exact deepEqual_of_reorder (parseJson_wf hs) hro

/-- C1 witness: the two-key object of the spec's example, keys swapped. -/
theorem C1_reorder_keys_equal_witness :
    jsonEqual "\x7b\"a\":1,\"b\":2\x7d" "\x7b\"b\":2,\"a\":1\x7d" = true :=
  C1_reorder_keys_equal _ _
    (.obj [("a", .num 1), ("b", .num 2)]) (.obj [("b", .num 2), ("a", .num 1)])
    rfl rfl
    (ReorderOf.obj
      (ReorderMembers.cons (ReorderOf.num 1)
        (ReorderMembers.cons (ReorderOf.num 2) ReorderMembers.nil))
      (List.Perm.swap ("b", JsonValue.num 2) ("a", JsonValue.num 1) []))

/-- C2: whenever at least one of the two input strings fails to decode as
JSON, `jsonEqual` returns false, regardless of which argument is invalid; the
comparator is a total function into `Bool`, so decoding failure is never
surfaced as an error. -/
theorem C2_parse_failure_not_equal (a b : String)
    (h : parseJson a = none ∨ parseJson b = none) : jsonEqual a b = false := by
  simp only [jsonEqual]
  rcases h with h | h
  · simp [h]
  · rcases ha : parseJson a with _ | va
    · rfl
    · simp [h]

/-- C2 witness: an unterminated object against a valid document, in both
argument orders. -/
theorem C2_parse_failure_not_equal_witness :
    jsonEqual "\x7b" "\x7b\"a\":1\x7d" = false ∧
    jsonEqual "\x7b\"a\":1\x7d" "\x7b" = false :=
  ⟨C2_parse_failure_not_equal _ _ (Or.inl rfl),
   C2_parse_failure_not_equal _ _ (Or.inr rfl)⟩

/-- C3: two decoded objects compare equal exactly when they have the same
number of keys, every key of the first is present in the second, and the value
at each such key compares equal recursively. -/
theorem C3_object_equality (as bs : List (String × JsonValue)) :
    deepEqual (.obj as) (.obj bs) = true ↔
      as.length = bs.length ∧
      ∀ kv ∈ as, ∃ v2, lookupKey kv.1 bs = some v2 ∧ deepEqual kv.2 v2 = true :=
  deepEqual_obj_iff as bs

/-- C3 witness: the characterization instantiated on a one-member object. -/
theorem C3_object_equality_witness :
    deepEqual (JsonValue.obj [("a", JsonValue.num 1)])
      (JsonValue.obj [("a", JsonValue.num 1)]) = true := by
  refine (C3_object_equality _ _).mpr ⟨rfl, ?_⟩
  intro kv hkv
  obtain rfl := List.mem_singleton.mp hkv
  exact ⟨JsonValue.num 1, rfl, rfl⟩

/-- C4: two decoded arrays compare equal exactly when they have the same
length and the elements at each index compare equal recursively; in
particular, a permutation of an array that differs from it at some index
compares not-equal. -/
theorem C4_array_equality :
    (∀ xs ys : List JsonValue, deepEqual (.arr xs) (.arr ys) = true ↔
      xs.length = ys.length ∧
      ∀ (i : Nat) (h1 : i < xs.length) (h2 : i < ys.length),
        deepEqual (xs.get ⟨i, h1⟩) (ys.get ⟨i, h2⟩) = true) ∧
    (∀ xs ys : List JsonValue, xs.Perm ys →
      ∀ (i : Nat) (h1 : i < xs.length) (h2 : i < ys.length),
        deepEqual (xs.get ⟨i, h1⟩) (ys.get ⟨i, h2⟩) = false →
        deepEqual (.arr xs) (.arr ys) = false) := by
  refine ⟨deepEqual_arr_iff, ?_⟩
  intro xs ys _ i h1 h2 hne
  cases h : deepEqual (.arr xs) (.arr ys) with
  | false => rfl
  | true =>
    obtain ⟨_, hget⟩ := (deepEqual_arr_iff xs ys).mp h
    have hT := hget i h1 h2
    rw [hT] at hne
    exact absurd hne (by decide)

/-- C4 witness: `[1,2]` against its reversal `[2,1]`, which differ at index
`0`. -/
theorem C4_array_equality_witness :
    deepEqual (JsonValue.arr [JsonValue.num 1, JsonValue.num 2])
      (JsonValue.arr [JsonValue.num 2, JsonValue.num 1]) = false :=
  C4_array_equality.2 _ _
    (List.Perm.swap (JsonValue.num 2) (JsonValue.num 1) [])
    0 (by decide) (by decide) (by decide)

/-- C5: decoded scalars compare equal exactly when their decoded values are
identical; numeric literals with different text but the same decoded numeric
value (such as `1` and `1.0`) compare equal; values of different kinds never
compare equal. -/
theorem C5_scalar_equality :
    (∀ x y : ℚ, deepEqual (.num x) (.num y) = true ↔ x = y) ∧
    (∀ x y : String, deepEqual (.str x) (.str y) = true ↔ x = y) ∧
    (∀ x y : Bool, deepEqual (.bool x) (.bool y) = true ↔ x = y) ∧
    deepEqual .null .null = true ∧
    (∀ s t : String, ∀ x y : ℚ, parseJson s = some (.num x) →
      parseJson t = some (.num y) → x = y → jsonEqual s t = true) ∧
    (∀ a b : JsonValue, kindOf a ≠ kindOf b → deepEqual a b = false) := by
  refine ⟨?_, ?_, ?_, rfl, ?_, ?_⟩
  · intro x y
    simp [deepEqual]
  · intro x y
    simp [deepEqual]
  · intro x y
    simp [deepEqual]
  · intro s t x y hs ht hxy
    simp only [jsonEqual, hs, ht]
    simp [deepEqual, hxy]
  · intro a b h
    cases a <;> cases b <;>
      first
        | rfl
        | exact absurd rfl h

/-- C5 witness: the literals `1` and `1.0` decode to the same number and
compare equal. -/
theorem C5_scalar_equality_witness : jsonEqual "1" "1.0" = true :=
  C5_scalar_equality.2.2.2.2.1 "1" "1.0" 1 ((10 : ℚ) / 10 ^ 1) rfl rfl
    (by norm_num)

/-- C6 counterexample: on input text that is not valid JSON, comparing a
string with an exact copy of itself returns false, not true, because decoding
fails; so the claim is false for arbitrary input strings. -/
theorem C6_counterexample : jsonEqual "not json" "not json" = false := rfl

/-- C6 (amended): for every input string that decodes as JSON, comparing it
with an exact textual copy of itself returns equal. -/
theorem C6_reflexive_on_valid (s : String) (v : JsonValue)
    (h : parseJson s = some v) : jsonEqual s s = true := by
  simp only [jsonEqual, h]
  exact deepEqual_refl v (parseJson_wf h)

/-- C6 witness: reflexivity on a concrete valid document. -/
theorem C6_reflexive_on_valid_witness :
    jsonEqual "[1,2,\x7b\"k\":null\x7d]" "[1,2,\x7b\"k\":null\x7d]" = true :=
  C6_reflexive_on_valid _
    (JsonValue.arr [JsonValue.num 1, JsonValue.num 2,
      JsonValue.obj [("k", JsonValue.null)]]) rfl

/-- C7: when the planned data attribute is not valid JSON, both `Create` and
`Update` add the validation error and return at once: the remote API is not
called and no state is written back, so the remote resource and the tracked
state are left unchanged. -/
theorem C7_invalid_json_no_remote_call (plan : OverlayResourceModel)
    (capi : OverlayPayload → Except String Overlay)
    (uapi : String → OverlayPayload → Except String Overlay)
    (h : parseJson (tfValueString plan.data) = none) :
    createOverlay plan capi =
      { errors := ["Invalid JSON in data"], apiCalled := false, state := none } ∧
    updateOverlay plan uapi =
      { errors := ["Invalid JSON in data"], apiCalled := false, state := none } := by
  constructor
  · simp [createOverlay, h]
  · simp [updateOverlay, h]

/-- C7 witness: a plan whose data is not JSON, against an arbitrary remote
endpoint. -/
theorem C7_invalid_json_no_remote_call_witness :
    createOverlay
      { id := none, name := some "n", description := none,
        organizationId := none, data := some "not json", createdBy := none,
        createdAt := none, updatedAt := none }
      (fun _ => Except.error "unused") =
      { errors := ["Invalid JSON in data"], apiCalled := false, state := none } ∧
    updateOverlay
      { id := none, name := some "n", description := none,
        organizationId := none, data := some "not json", createdBy := none,
        createdAt := none, updatedAt := none }
      (fun _ _ => Except.error "unused") =
      { errors := ["Invalid JSON in data"], apiCalled := false, state := none } :=
  C7_invalid_json_no_remote_call _ _ _ rfl

/-- C8: each provider setting resolves to the explicitly supplied value when
one is present and to its environment variable otherwise; when either setting
resolves to the empty string, `Configure` records a fatal error and constructs
no client; otherwise it records no error and constructs the client from the
two resolved values. -/
theorem C8_configure_resolution (data : RevosProviderModel)
    (envURL envToken : String) :
    (tfIsNull data.apiURL = false →
      resolveSetting data.apiURL envURL = tfValueString data.apiURL) ∧
    (tfIsNull data.apiURL = true → resolveSetting data.apiURL envURL = envURL) ∧
    (tfIsNull data.token = false →
      resolveSetting data.token envToken = tfValueString data.token) ∧
    (tfIsNull data.token = true → resolveSetting data.token envToken = envToken) ∧
    (resolveSetting data.apiURL envURL = "" ∨ resolveSetting data.token envToken = "" →
      (configureProvider data envURL envToken).errors ≠ [] ∧
      (configureProvider data envURL envToken).client = none) ∧
    (resolveSetting data.apiURL envURL ≠ "" → resolveSetting data.token envToken ≠ "" →
      (configureProvider data envURL envToken).errors = [] ∧
      (configureProvider data envURL envToken).client =
        some { apiURL := resolveSetting data.apiURL envURL,
               token := resolveSetting data.token envToken }) := by
  refine ⟨?_, ?_, ?_, ?_, ?_, ?_⟩
  · intro h
    simp [resolveSetting, h]
  · intro h
    simp [resolveSetting, h]
  · intro h
    simp [resolveSetting, h]
  · intro h
    simp [resolveSetting, h]
  · intro h
    rcases h with h | h <;>
      simp only [configureProvider, resolveSetting] at h ⊢ <;>
      rw [h] <;>
      by_cases h2 : (if tfIsNull data.token then envToken
          else tfValueString data.token) = "" <;>
      by_cases h3 : (if tfIsNull data.apiURL then envURL
          else tfValueString data.apiURL) = "" <;>
      simp [h2, h3]
  · intro h1 h2
    simp only [configureProvider, resolveSetting] at h1 h2 ⊢
    simp [h1, h2]

/-- C8 witness: explicit values over (unused) environment fallbacks. -/
theorem C8_configure_resolution_witness :
    (configureProvider { apiURL := some "u", token := some "tk" } "x" "y").errors
      = [] ∧
    (configureProvider { apiURL := some "u", token := some "tk" } "x" "y").client
      = some { apiURL := "u", token := "tk" } :=
  (C8_configure_resolution { apiURL := some "u", token := some "tk" } "x" "y").2.2.2.2.2
    (by decide) (by decide)

/-- C9: the comparator is symmetric in its two string arguments. -/
theorem C9_jsonEqual_symmetric (a b : String) : jsonEqual a b = jsonEqual b a :=
  jsonEqual_comm a b

/-- C10: `ModifyPlan` treats a null and an empty-string description as equal,
and whenever the planned name equals the state name, the descriptions are
equal under that null/empty identification, and the planned data is
semantically equal to the state data, it copies the four computed fields and
the data field from state into the plan. -/
theorem C10_modifyPlan_preserves_state :
    stringEqualOrBothEmpty none (some "") = true ∧
    stringEqualOrBothEmpty (some "") none = true ∧
    ∀ plan state : OverlayResourceModel,
      tfEqual plan.name state.name = true →
      stringEqualOrBothEmpty plan.description state.description = true →
      jsonEqual (tfValueString plan.data) (tfValueString state.data) = true →
      modifyPlan plan state =
        { plan with
          organizationId := state.organizationId
          createdBy := state.createdBy
          createdAt := state.createdAt
          updatedAt := state.updatedAt
          data := state.data } := by
  refine ⟨rfl, rfl, ?_⟩
  intro plan state h1 h2 h3
  simp [modifyPlan, h1, h2, h3]

/-- C10 witness: a plan differing from state only in the data blob's key
order and in a null-versus-empty description. -/
theorem C10_modifyPlan_preserves_state_witness :
    modifyPlan
      { id := some "i", name := some "n", description := none,
        organizationId := none, data := some "\x7b\"a\":1,\"b\":2\x7d",
        createdBy := none, createdAt := none, updatedAt := none }
      { id := some "i", name := some "n", description := some "",
        organizationId := some "org", data := some "\x7b\"b\":2,\"a\":1\x7d",
        createdBy := some "me", createdAt := some "t0", updatedAt := some "t1" } =
      { id := some "i", name := some "n", description := none,
        organizationId := some "org", data := some "\x7b\"b\":2,\"a\":1\x7d",
        createdBy := some "me", createdAt := some "t0", updatedAt := some "t1" } :=
  C10_modifyPlan_preserves_state.2.2 _ _ rfl rfl rfl
